import Mathlib

set_option maxRecDepth 100000

/-!
Verification of the certificate-boundary scanner in `dechainer.py`
(`extract_certificates`).  The scanner walks an in-memory byte buffer with a
single cursor, looking for plausible DER certificate spans.  We embed the
buffer as a `List Nat` (one entry per byte) and the scanning loop as a
fuel-indexed structural recursion; the fuel `data.length` is enough because
the cursor strictly increases on every iteration.
-/

namespace Dechainer

/-- Decode the ASN.1 length field that starts at `data[i+1]`, following the
four supported encodings of the source (lines 55-83): short form (< 128),
and long forms with markers 0x81 / 0x82 / 0x83.  Returns
`some (length, header_size)` on success and `none` for an unsupported marker
or when the buffer is too short to contain the claimed length bytes. -/
def decodeLen (data : List Nat) (i : Nat) : Option (Nat × Nat) :=
  let length_byte := data.getD (i + 1) 0
  if length_byte < 128 then
    some (length_byte, 2)
  else if length_byte = 0x81 then
    if i + 2 ≥ data.length then none
    else some (data.getD (i + 2) 0, 3)
  else if length_byte = 0x82 then
    if i + 3 ≥ data.length then none
    else some (((data.getD (i + 2) 0) <<< 8) ||| data.getD (i + 3) 0, 4)
  else if length_byte = 0x83 then
    if i + 4 ≥ data.length then none
    else some ((((data.getD (i + 2) 0) <<< 16) ||| ((data.getD (i + 3) 0) <<< 8)) ||| data.getD (i + 4) 0, 5)
  else none

/-- One candidate test of the scanning loop body (source lines 51-98): at
cursor `i`, check the SEQUENCE tag, decode the length field, apply the
plausibility window, the bounds check and the follow-byte check.  Returns
`some total_size` when the candidate at `i` is accepted as a certificate
span, `none` when the loop would fall through to `i += 1`. -/
def accepts (data : List Nat) (i : Nat) : Option Nat :=
  if data.getD i 0 = 0x30 then
    match decodeLen data i with
    | none => none
    | some (length, header_size) =>
      if 128 ≤ length ∧ length ≤ 10000 ∧ i + (header_size + length) ≤ data.length then
        if header_size < data.length ∧
            (data.getD (i + header_size) 0 = 0x30 ∨ data.getD (i + header_size) 0 = 0x02) then
          some (header_size + length)
        else none
      else none
  else none

/-- The scanning loop (source lines 48-100), indexed by fuel.  Each
iteration runs under the loop condition `i < len(data) - 4`, i.e.
`i + 4 < data.length`; an accepted candidate appends `(i, total_size)` and
jumps the cursor past the span, a rejected one advances the cursor by one
byte. -/
def scanGo (data : List Nat) : Nat → Nat → List (Nat × Nat)
  | 0, _ => []
  | fuel + 1, i =>
    if i + 4 < data.length then
      match accepts data i with
      | some total_size => (i, total_size) :: scanGo data fuel (i + total_size)
      | none => scanGo data fuel (i + 1)
    else []

/-- The list `cert_positions` produced by the boundary scan of
`extract_certificates`: run the loop from cursor 0.  Fuel `data.length`
suffices because the cursor strictly increases each iteration and the loop
stops once `i + 4 ≥ data.length`. -/
def cert_positions (data : List Nat) : List (Nat × Nat) :=
  scanGo data data.length 0

/-- The name assigned to one extracted certificate (source line 106):
the prefix concatenated with the decimal certificate index. -/
def base_name ( pfx : String) (cert_index : Nat) : String :=
  pfx ++ toString cert_index

/-- The names assigned to the extracted certificates (source lines 104-106):
position `idx` in the span list gets index `start_index + idx`. -/
def certNames ( pfx : String) (start_index : Nat) (spans : List (Nat × Nat)) : List String :=
  spans.enum.map fun p => base_name pfx (start_index + p.1)

/-- The buffer indices read by the follow-byte ("second opinion") check of
one candidate, given the decoded `length` and `header_size` (source lines
89-94): the byte at `i + header_size` is read only when the window and
bounds checks passed and `header_size < len(data)` (the `and`
short-circuits). -/
def checkReads (data : List Nat) (i length header_size : Nat) : List Nat :=
  if 128 ≤ length ∧ length ≤ 10000 ∧ i + (header_size + length) ≤ data.length then
    if header_size < data.length then [i + header_size] else []
  else []

/-- All buffer indices read by one iteration of the scanning loop at cursor
`i`, following the source's branch structure exactly: the tag byte at `i`;
the length byte at `i + 1` when the tag matched; the long-form length bytes
at `i+2 .. i+4` when their form is selected and its bounds guard passed;
and the follow-byte read of `checkReads`. -/
def readIndices (data : List Nat) (i : Nat) : List Nat :=
  i :: (if data.getD i 0 = 0x30 then
    (i + 1) :: (
      let length_byte := data.getD (i + 1) 0
      if length_byte < 128 then
        checkReads data i length_byte 2
      else if length_byte = 0x81 then
        if i + 2 ≥ data.length then []
        else (i + 2) :: checkReads data i (data.getD (i + 2) 0) 3
      else if length_byte = 0x82 then
        if i + 3 ≥ data.length then []
        else (i + 2) :: (i + 3) ::
          checkReads data i (((data.getD (i + 2) 0) <<< 8) ||| data.getD (i + 3) 0) 4
      else if length_byte = 0x83 then
        if i + 4 ≥ data.length then []
        else (i + 2) :: (i + 3) :: (i + 4) ::
          checkReads data i ((((data.getD (i + 2) 0) <<< 16) ||| ((data.getD (i + 3) 0) <<< 8)) ||| data.getD (i + 4) 0) 5
      else [])
  else [])

/-- All buffer indices read by the whole scan, along the same cursor path as
`scanGo`. -/
def scanReads (data : List Nat) : Nat → Nat → List Nat
  | 0, _ => []
  | fuel + 1, i =>
    if i + 4 < data.length then
      readIndices data i ++
        (match accepts data i with
         | some total_size => scanReads data fuel (i + total_size)
         | none => scanReads data fuel (i + 1))
    else []

/-- A minimal 131-byte certificate blob: tag 0x30, long-form marker 0x81,
length byte 0x80 (= 128), then the 128-byte payload. -/
def blob (p : List Nat) : List Nat :=
  0x30 :: 0x81 :: 0x80 :: p

/-- A 128-byte payload starting with an inner SEQUENCE tag. -/
def payload128 : List Nat := 0x30 :: List.replicate 127 0

/-- Candidate with decoded length 127 (short form), follow byte 0x30, span
exactly filling the buffer. -/
def bufLen127 : List Nat := 0x30 :: 0x7F :: 0x30 :: List.replicate 126 0

/-- Candidate with decoded length 128 (marker 0x81), follow byte 0x30, span
exactly filling the buffer. -/
def bufLen128 : List Nat := blob payload128

/-- Candidate with decoded length 10000 (marker 0x82, bytes 0x27 0x10),
follow byte 0x30, span exactly filling the buffer. -/
def bufLen10000 : List Nat := 0x30 :: 0x82 :: 0x27 :: 0x10 :: 0x30 :: List.replicate 9999 0

/-- Candidate with decoded length 10001 (marker 0x82, bytes 0x27 0x11),
follow byte 0x30, span exactly filling the buffer. -/
def bufLen10001 : List Nat := 0x30 :: 0x82 :: 0x27 :: 0x11 :: 0x30 :: List.replicate 10000 0

/-- A 131-byte certificate accepted as a single full span. -/
def certA : List Nat := blob payload128

/-- A 138-byte certificate (declared length 0x87 = 135) whose payload
begins with a complete inner copy of `certA`. -/
def certC : List Nat := 0x30 :: 0x81 :: 0x87 :: (certA ++ [0, 0, 0, 0])

/-- Two full certificates followed by `certC` truncated to 134 bytes (its
declared total size is 138). -/
def buf8 : List Nat := certA ++ (certA ++ certC.take 134)

/-- A candidate whose follow byte is 0xFF: every check up to the follow-byte
check passes, the follow-byte check fails. -/
def badFollow : List Nat := 0x30 :: 0x81 :: 0x80 :: 0xFF :: List.replicate 127 0

theorem getD_append_lt {l1 l2 : List Nat} {n : Nat} (d : Nat) (h : n < l1.length) :
    (l1 ++ l2).getD n d = l1.getD n d := by
  induction l1 generalizing n with
  | nil => simp at h
  | cons a l ih =>
    cases n with
    | zero => rfl
    | succ n =>
      simp only [List.cons_append, List.getD_cons_succ]
      exact ih (by simpa using h)

theorem getD_append_add {l1 l2 : List Nat} (n d : Nat) :
    (l1 ++ l2).getD (l1.length + n) d = l2.getD n d := by
  induction l1 with
  | nil => simp
  | cons a l ih =>
    simp only [List.cons_append, List.length_cons, Nat.succ_add, List.getD_cons_succ]
    exact ih

theorem getD_drop {l : List Nat} (s n d : Nat) :
    (l.drop s).getD n d = l.getD (s + n) d := by
  induction l generalizing s with
  | nil => simp
  | cons a l ih =>
    cases s with
    | zero => simp
    | succ s =>
      simp only [List.drop_succ_cons, Nat.succ_add, List.getD_cons_succ]
      exact ih s

theorem getD_take {l : List Nat} {n t : Nat} (d : Nat) (h : n < t) :
    (l.take t).getD n d = l.getD n d := by
  induction l generalizing n t with
  | nil => simp
  | cons a l ih =>
    cases t with
    | zero => omega
    | succ t =>
      cases n with
      | zero => simp
      | succ n =>
        simpa using ih (by omega)

theorem shiftLeft_lor_eq {a b n : Nat} (h : b < 2 ^ n) :
    (a <<< n) ||| b = a * 2 ^ n + b := by
  rw [Nat.shiftLeft_eq, Nat.mul_comm]
  exact (Nat.mul_add_lt_is_or h a).symm

theorem decodeLen_short {data : List Nat} {i : Nat} (h : data.getD (i + 1) 0 < 128) :
    decodeLen data i = some (data.getD (i + 1) 0, 2) := by
  simp only [decodeLen]
  rw [if_pos h]

theorem decodeLen_x81 {data : List Nat} {i : Nat} (h : data.getD (i + 1) 0 = 0x81)
    (h2 : i + 2 < data.length) :
    decodeLen data i = some (data.getD (i + 2) 0, 3) := by
  have hlt : ¬ (data.getD (i + 1) 0 < 128) := by omega
  have hg : ¬ (i + 2 ≥ data.length) := by omega
  simp only [decodeLen]
  rw [if_neg hlt, if_pos h, if_neg hg]

theorem decodeLen_x82 {data : List Nat} {i : Nat} (h : data.getD (i + 1) 0 = 0x82)
    (h2 : i + 3 < data.length) :
    decodeLen data i = some (((data.getD (i + 2) 0) <<< 8) ||| data.getD (i + 3) 0, 4) := by
  have hlt : ¬ (data.getD (i + 1) 0 < 128) := by omega
  have hne : data.getD (i + 1) 0 ≠ 0x81 := by omega
  have hg : ¬ (i + 3 ≥ data.length) := by omega
  simp only [decodeLen]
  rw [if_neg hlt, if_neg hne, if_pos h, if_neg hg]

theorem decodeLen_x83 {data : List Nat} {i : Nat} (h : data.getD (i + 1) 0 = 0x83)
    (h2 : i + 4 < data.length) :
    decodeLen data i = some
      ((((data.getD (i + 2) 0) <<< 16) ||| ((data.getD (i + 3) 0) <<< 8)) ||| data.getD (i + 4) 0, 5) := by
  have hlt : ¬ (data.getD (i + 1) 0 < 128) := by omega
  have hne1 : data.getD (i + 1) 0 ≠ 0x81 := by omega
  have hne2 : data.getD (i + 1) 0 ≠ 0x82 := by omega
  have hg : ¬ (i + 4 ≥ data.length) := by omega
  simp only [decodeLen]
  rw [if_neg hlt, if_neg hne1, if_neg hne2, if_pos h, if_neg hg]

theorem decodeLen_unsupported {data : List Nat} {i : Nat} (h1 : 128 ≤ data.getD (i + 1) 0)
    (h2 : data.getD (i + 1) 0 ≠ 0x81) (h3 : data.getD (i + 1) 0 ≠ 0x82)
    (h4 : data.getD (i + 1) 0 ≠ 0x83) :
    decodeLen data i = none := by
  have hlt : ¬ (data.getD (i + 1) 0 < 128) := by omega
  simp only [decodeLen]
  rw [if_neg hlt, if_neg h2, if_neg h3, if_neg h4]

theorem decodeLen_cases {data : List Nat} {i L hd : Nat}
    (h : decodeLen data i = some (L, hd)) :
    (data.getD (i + 1) 0 < 128 ∧ L = data.getD (i + 1) 0 ∧ hd = 2) ∨
    (data.getD (i + 1) 0 = 0x81 ∧ i + 2 < data.length ∧ L = data.getD (i + 2) 0 ∧ hd = 3) ∨
    (data.getD (i + 1) 0 = 0x82 ∧ i + 3 < data.length ∧
      L = ((data.getD (i + 2) 0) <<< 8) ||| data.getD (i + 3) 0 ∧ hd = 4) ∨
    (data.getD (i + 1) 0 = 0x83 ∧ i + 4 < data.length ∧
      L = (((data.getD (i + 2) 0) <<< 16) ||| ((data.getD (i + 3) 0) <<< 8)) ||| data.getD (i + 4) 0 ∧
      hd = 5) := by
  simp only [decodeLen] at h
  split at h
  · simp only [Option.some.injEq, Prod.mk.injEq] at h
    exact Or.inl ⟨by assumption, h.1.symm, h.2.symm⟩
  · split at h
    · split at h
      · simp at h
      · simp only [Option.some.injEq, Prod.mk.injEq] at h
        exact Or.inr (Or.inl ⟨by assumption, by omega, h.1.symm, h.2.symm⟩)
    · split at h
      · split at h
        · simp at h
        · simp only [Option.some.injEq, Prod.mk.injEq] at h
          exact Or.inr (Or.inr (Or.inl ⟨by assumption, by omega, h.1.symm, h.2.symm⟩))
      · split at h
        · split at h
          · simp at h
          · simp only [Option.some.injEq, Prod.mk.injEq] at h
            exact Or.inr (Or.inr (Or.inr ⟨by assumption, by omega, h.1.symm, h.2.symm⟩))
        · simp at h

theorem decodeLen_hd_bounds {data : List Nat} {i L hd : Nat}
    (h : decodeLen data i = some (L, hd)) : 2 ≤ hd ∧ hd ≤ 5 := by
  rcases decodeLen_cases h with h' | h' | h' | h' <;> omega

theorem accepts_inv {data : List Nat} {i t : Nat} (h : accepts data i = some t) :
    data.getD i 0 = 0x30 ∧
    ∃ L hd, decodeLen data i = some (L, hd) ∧ t = hd + L ∧
      128 ≤ L ∧ L ≤ 10000 ∧ i + t ≤ data.length ∧ hd < data.length ∧
      (data.getD (i + hd) 0 = 0x30 ∨ data.getD (i + hd) 0 = 0x02) := by
  unfold accepts at h
  split at h
  · next htag =>
    split at h
    · simp at h
    · next L hd hdec =>
      split at h
      · next hw =>
        split at h
        · next hf =>
          simp only [Option.some.injEq] at h
          exact ⟨htag, L, hd, hdec, h.symm, hw.1, hw.2.1, by omega, hf.1, hf.2⟩
        · simp at h
      · simp at h
  · simp at h

theorem accepts_intro {data : List Nat} {i L hd : Nat}
    (h0 : data.getD i 0 = 0x30) (hdec : decodeLen data i = some (L, hd))
    (hw1 : 128 ≤ L) (hw2 : L ≤ 10000) (hfit : i + (hd + L) ≤ data.length)
    (hhd : hd < data.length)
    (hfol : data.getD (i + hd) 0 = 0x30 ∨ data.getD (i + hd) 0 = 0x02) :
    accepts data i = some (hd + L) := by
  unfold accepts
  rw [if_pos h0, hdec]
  dsimp only
  rw [if_pos ⟨hw1, hw2, hfit⟩, if_pos ⟨hhd, hfol⟩]

theorem accepts_total_lb {data : List Nat} {i t : Nat} (h : accepts data i = some t) :
    130 ≤ t := by
  obtain ⟨-, L, hd, hdec, ht, hw1, -⟩ := accepts_inv h
  have := decodeLen_hd_bounds hdec
  omega

theorem accepts_congr {data data2 : List Nat} {i i2 t : Nat}
    (h : accepts data i = some t)
    (hc : ∀ j, j < t → data2.getD (i2 + j) 0 = data.getD (i + j) 0)
    (hfit : i2 + t ≤ data2.length) :
    accepts data2 i2 = some t := by
  obtain ⟨htag, L, hd, hdec, ht, hw1, hw2, hfit1, hhd, hfol⟩ := accepts_inv h
  have hhd5 := decodeLen_hd_bounds hdec
  have ht130 : 130 ≤ t := by omega
  have h0 : data2.getD i2 0 = 0x30 := by
    have := hc 0 (by omega)
    simpa using this.trans htag
  have h1 : data2.getD (i2 + 1) 0 = data.getD (i + 1) 0 := hc 1 (by omega)
  have h2 : data2.getD (i2 + 2) 0 = data.getD (i + 2) 0 := hc 2 (by omega)
  have h3 : data2.getD (i2 + 3) 0 = data.getD (i + 3) 0 := hc 3 (by omega)
  have h4 : data2.getD (i2 + 4) 0 = data.getD (i + 4) 0 := hc 4 (by omega)
  have hdec2 : decodeLen data2 i2 = some (L, hd) := by
    rcases decodeLen_cases hdec with ⟨hb, hL, hh⟩ | ⟨hb, hg, hL, hh⟩ | ⟨hb, hg, hL, hh⟩ |
        ⟨hb, hg, hL, hh⟩
    · subst hL hh
      rw [decodeLen_short (h1 ▸ hb), h1]
    · subst hL hh
      rw [decodeLen_x81 (h1 ▸ hb) (by omega), h2]
    · subst hL hh
      rw [decodeLen_x82 (h1 ▸ hb) (by omega), h2, h3]
    · subst hL hh
      rw [decodeLen_x83 (h1 ▸ hb) (by omega), h2, h3, h4]
  have hfol2 : data2.getD (i2 + hd) 0 = 0x30 ∨ data2.getD (i2 + hd) 0 = 0x02 := by
    rw [hc hd (by omega)]
    exact hfol
  subst ht
  exact accepts_intro h0 hdec2 hw1 hw2 hfit (by omega) hfol2

theorem accepts_append_left {l1 : List Nat} (l2 : List Nat) {i t : Nat}
    (h : accepts l1 i = some t) : accepts (l1 ++ l2) i = some t := by
  obtain ⟨-, L, hd, -, -, -, -, hfit1, -⟩ := accepts_inv h
  refine accepts_congr h (fun j hj => ?_) ?_
  · exact getD_append_lt 0 (by omega)
  · simp only [List.length_append]
    omega

theorem accepts_append_add (l1 : List Nat) {l2 : List Nat} {j t : Nat}
    (h : accepts l2 j = some t) : accepts (l1 ++ l2) (l1.length + j) = some t := by
  obtain ⟨-, L, hd, -, -, -, -, hfit1, -⟩ := accepts_inv h
  refine accepts_congr h (fun k hk => ?_) ?_
  · rw [Nat.add_assoc]
    exact getD_append_add (j + k) 0
  · simp only [List.length_append]
    omega

theorem scanGo_stop {data : List Nat} {i : Nat} (fuel : Nat) (h : ¬ i + 4 < data.length) :
    scanGo data fuel i = [] := by
  cases fuel with
  | zero => rfl
  | succ fuel => simp [scanGo, h]

theorem scanGo_accept {data : List Nat} {i t : Nat} (fuel : Nat)
    (hcond : i + 4 < data.length) (hacc : accepts data i = some t) :
    scanGo data (fuel + 1) i = (i, t) :: scanGo data fuel (i + t) := by
  simp [scanGo, hcond, hacc]

theorem scanGo_skip {data : List Nat} {i : Nat} (fuel : Nat)
    (hcond : i + 4 < data.length) (hacc : accepts data i = none) :
    scanGo data (fuel + 1) i = scanGo data fuel (i + 1) := by
  simp [scanGo, hcond, hacc]

theorem scanGo_accept_pos {data : List Nat} {i t fuel : Nat} (hf : 0 < fuel)
    (hcond : i + 4 < data.length) (hacc : accepts data i = some t) :
    scanGo data fuel i = (i, t) :: scanGo data (fuel - 1) (i + t) := by
  obtain ⟨f, rfl⟩ := Nat.exists_eq_succ_of_ne_zero (show fuel ≠ 0 by omega)
  exact scanGo_accept f hcond hacc

theorem spans_mem {data : List Nat} : ∀ {fuel i : Nat} {p : Nat × Nat},
    p ∈ scanGo data fuel i →
    accepts data p.1 = some p.2 ∧ p.1 + 4 < data.length ∧ i ≤ p.1 := by
  intro fuel
  induction fuel with
  | zero =>
    intro i p h
    simp [scanGo] at h
  | succ fuel ih =>
    intro i p h
    by_cases hcond : i + 4 < data.length
    · cases hacc : accepts data i with
      | some u =>
        rw [scanGo_accept fuel hcond hacc] at h
        simp only [List.mem_cons] at h
        rcases h with rfl | h
        · exact ⟨hacc, hcond, Nat.le_refl _⟩
        · have hm := ih h
          have ht := accepts_total_lb hacc
          exact ⟨hm.1, hm.2.1, by omega⟩
      | none =>
        rw [scanGo_skip fuel hcond hacc] at h
        have hm := ih h
        exact ⟨hm.1, hm.2.1, by omega⟩
    · rw [scanGo_stop _ hcond] at h
      simp at h

theorem no_span_at_rejected {data : List Nat} {fuel i : Nat} {p : Nat × Nat}
    (hacc : accepts data i = none) (hp : p ∈ scanGo data fuel i) : i < p.1 := by
  cases fuel with
  | zero => simp [scanGo] at hp
  | succ fuel =>
    by_cases hcond : i + 4 < data.length
    · rw [scanGo_skip fuel hcond hacc] at hp
      have := (spans_mem hp).2.2
      omega
    · rw [scanGo_stop _ hcond] at hp
      simp at hp

theorem scanGo_pairwise {data : List Nat} : ∀ fuel i,
    List.Pairwise (fun p q => p.1 + p.2 ≤ q.1 ∧ p.1 < q.1) (scanGo data fuel i) := by
  intro fuel
  induction fuel with
  | zero =>
    intro i
    simp [scanGo]
  | succ fuel ih =>
    intro i
    by_cases hcond : i + 4 < data.length
    · cases hacc : accepts data i with
      | some t =>
        rw [scanGo_accept fuel hcond hacc]
        refine List.Pairwise.cons (fun q hq => ?_) (ih _)
        have hm := spans_mem hq
        have ht := accepts_total_lb hacc
        constructor <;> [exact hm.2.2; omega]
      | none =>
        rw [scanGo_skip fuel hcond hacc]
        exact ih _
    · rw [scanGo_stop _ hcond]
      simp


theorem scanGo_fuel_eq {data : List Nat} : ∀ fuel1 fuel2 i,
    data.length ≤ i + fuel1 → data.length ≤ i + fuel2 →
    scanGo data fuel1 i = scanGo data fuel2 i := by
  intro fuel1
  induction fuel1 with
  | zero =>
    intro fuel2 i h1 h2
    exact (scanGo_stop fuel2 (by omega)).symm
  | succ fuel1 ih =>
    intro fuel2 i h1 h2
    by_cases hcond : i + 4 < data.length
    · obtain ⟨f2, rfl⟩ := Nat.exists_eq_succ_of_ne_zero (show fuel2 ≠ 0 by omega)
      cases hacc : accepts data i with
      | some t =>
        have ht := accepts_total_lb hacc
        rw [scanGo_accept fuel1 hcond hacc, scanGo_accept f2 hcond hacc,
          ih f2 (i + t) (by omega) (by omega)]
      | none =>
        rw [scanGo_skip fuel1 hcond hacc, scanGo_skip f2 hcond hacc]
        exact ih f2 (i + 1) (by omega) (by omega)
    · rw [scanGo_stop _ hcond, scanGo_stop _ hcond]

theorem scanGo_all_none {data : List Nat} (hall : ∀ j, accepts data j = none) :
    ∀ fuel i, scanGo data fuel i = [] := by
  intro fuel
  induction fuel with
  | zero => intro i; rfl
  | succ fuel ih =>
    intro i
    by_cases hcond : i + 4 < data.length
    · rw [scanGo_skip fuel hcond (hall i)]
      exact ih _
    · exact scanGo_stop _ hcond

theorem accepts_nil : ∀ i, accepts ([] : List Nat) i = none := by
  intro i
  simp [accepts]

theorem checkReads_lt {data : List Nat} {i L hd j : Nat}
    (hj : j ∈ checkReads data i L hd) : j < data.length := by
  unfold checkReads at hj
  split at hj
  · next hw =>
    split at hj
    · simp only [List.mem_singleton] at hj
      omega
    · simp at hj
  · simp at hj

theorem readIndices_lt {data : List Nat} {i j : Nat} (hcond : i + 4 < data.length)
    (hj : j ∈ readIndices data i) : j < data.length := by
  simp only [readIndices] at hj
  by_cases htag : data.getD i 0 = 0x30
  · rw [if_pos htag] at hj
    by_cases hb1 : data.getD (i + 1) 0 < 128
    · rw [if_pos hb1] at hj
      simp only [List.mem_cons] at hj
      rcases hj with rfl | rfl | hj
      · omega
      · omega
      · exact checkReads_lt hj
    · rw [if_neg hb1] at hj
      by_cases hb2 : data.getD (i + 1) 0 = 0x81
      · rw [if_pos hb2] at hj
        by_cases hg : i + 2 ≥ data.length
        · rw [if_pos hg] at hj
          simp only [List.mem_cons] at hj
          rcases hj with rfl | rfl | hj
          · omega
          · omega
          · simp at hj
        · rw [if_neg hg] at hj
          simp only [List.mem_cons] at hj
          rcases hj with rfl | rfl | rfl | hj
          · omega
          · omega
          · omega
          · exact checkReads_lt hj
      · rw [if_neg hb2] at hj
        by_cases hb3 : data.getD (i + 1) 0 = 0x82
        · rw [if_pos hb3] at hj
          by_cases hg : i + 3 ≥ data.length
          · rw [if_pos hg] at hj
            simp only [List.mem_cons] at hj
            rcases hj with rfl | rfl | hj
            · omega
            · omega
            · simp at hj
          · rw [if_neg hg] at hj
            simp only [List.mem_cons] at hj
            rcases hj with rfl | rfl | rfl | rfl | hj
            · omega
            · omega
            · omega
            · omega
            · exact checkReads_lt hj
        · rw [if_neg hb3] at hj
          by_cases hb4 : data.getD (i + 1) 0 = 0x83
          · rw [if_pos hb4] at hj
            by_cases hg : i + 4 ≥ data.length
            · rw [if_pos hg] at hj
              simp only [List.mem_cons] at hj
              rcases hj with rfl | rfl | hj
              · omega
              · omega
              · simp at hj
            · rw [if_neg hg] at hj
              simp only [List.mem_cons] at hj
              rcases hj with rfl | rfl | rfl | rfl | rfl | hj
              · omega
              · omega
              · omega
              · omega
              · omega
              · exact checkReads_lt hj
          · rw [if_neg hb4] at hj
            simp only [List.mem_cons] at hj
            rcases hj with rfl | rfl | hj
            · omega
            · omega
            · simp at hj
  · rw [if_neg htag] at hj
    simp only [List.mem_cons] at hj
    rcases hj with rfl | hj
    · omega
    · simp at hj

theorem scanReads_lt {data : List Nat} : ∀ {fuel i j : Nat},
    j ∈ scanReads data fuel i → j < data.length := by
  intro fuel
  induction fuel with
  | zero =>
    intro i j h
    simp [scanReads] at h
  | succ fuel ih =>
    intro i j h
    by_cases hcond : i + 4 < data.length
    · rw [scanReads, if_pos hcond] at h
      simp only [List.mem_append] at h
      rcases h with h | h
      · exact readIndices_lt hcond h
      · cases hacc : accepts data i with
        | some t =>
          rw [hacc] at h
          exact ih h
        | none =>
          rw [hacc] at h
          exact ih h
    · rw [scanReads, if_neg hcond] at h
      simp at h

/-- C1: for every input buffer and every span (start_offset, total_size) in the
list produced by the boundary scan, start_offset + total_size does not exceed
the buffer length. -/
theorem C1_spans_within_bounds (data : List Nat) (s t : Nat)
    (h : (s, t) ∈ cert_positions data) : s + t ≤ data.length := by
  rw [cert_positions] at h
  have hm := spans_mem h
  obtain ⟨-, L, hd, -, -, -, -, hfit, -, -⟩ := accepts_inv hm.1
  exact hfit

theorem C1_spans_within_bounds_witness :
    (0, 131) ∈ cert_positions bufLen128 ∧ 0 + 131 ≤ bufLen128.length :=
  ⟨by decide, C1_spans_within_bounds bufLen128 0 131 (by decide)⟩

/-- C2: every buffer index read by the boundary scan — the tag byte at i, the
length byte at i+1, the selected long-form length bytes at i+2..i+4, and the
follow-byte at i + header_size — is strictly less than the buffer length.
`scanReads` enumerates, along the scan's cursor path, exactly the indices the
source reads in each loop iteration. -/
theorem C2_reads_within_bounds (data : List Nat) (j : Nat)
    (h : j ∈ scanReads data data.length 0) : j < data.length :=
  scanReads_lt h

theorem C2_reads_within_bounds_witness :
    0 ∈ scanReads bufLen128 bufLen128.length 0 ∧ 0 < bufLen128.length :=
  ⟨by decide, C2_reads_within_bounds bufLen128 0 (by decide)⟩

/-- C3: spans produced by the scan are pairwise non-overlapping (each span ends
at or before the next one starts) and strictly increasing in start offset. -/
theorem C3_spans_disjoint_increasing (data : List Nat) :
    List.Pairwise (fun p q => p.1 + p.2 ≤ q.1 ∧ p.1 < q.1) (cert_positions data) :=
  scanGo_pairwise _ _

/-- C10: the boundary scan terminates — fuel equal to the buffer length is
enough, so any larger iteration budget produces the same list — and it is a
total function: a buffer in which no position is ever accepted yields the
empty list rather than a failure. -/
theorem C10_terminates_and_total :
    (∀ (data : List Nat) (fuel : Nat), data.length ≤ fuel →
      scanGo data fuel 0 = cert_positions data) ∧
    (∀ data : List Nat, (∀ i, accepts data i = none) → cert_positions data = []) := by
  constructor
  · intro data fuel h
    exact scanGo_fuel_eq fuel data.length 0 (by omega) (by omega)
  · intro data hall
    exact scanGo_all_none hall _ _

theorem C10_terminates_and_total_witness :
    scanGo bufLen128 500 0 = cert_positions bufLen128 ∧
    cert_positions ([] : List Nat) = [] :=
  ⟨C10_terminates_and_total.1 bufLen128 500 (by decide),
   C10_terminates_and_total.2 [] accepts_nil⟩

/-- C4: the length-field decoder implements exactly the four encodings — a
length byte below 128 decodes to itself with header_size 2; marker 0x81
decodes the next byte with header_size 3; marker 0x82 decodes the next two
bytes big-endian with header_size 4; marker 0x83 decodes the next three bytes
big-endian with header_size 5 — and any length byte of 128 or above other
than 0x81/0x82/0x83 is never accepted as a supported form and never yields a
span at that position. -/
theorem C4_length_decoder :
    (∀ (data : List Nat) (i : Nat), data.getD (i + 1) 0 < 128 →
      decodeLen data i = some (data.getD (i + 1) 0, 2)) ∧
    (∀ (data : List Nat) (i : Nat), data.getD (i + 1) 0 = 0x81 → i + 2 < data.length →
      decodeLen data i = some (data.getD (i + 2) 0, 3)) ∧
    (∀ (data : List Nat) (i : Nat), data.getD (i + 1) 0 = 0x82 → i + 3 < data.length →
      data.getD (i + 3) 0 < 256 →
      decodeLen data i = some (256 * data.getD (i + 2) 0 + data.getD (i + 3) 0, 4)) ∧
    (∀ (data : List Nat) (i : Nat), data.getD (i + 1) 0 = 0x83 → i + 4 < data.length →
      data.getD (i + 3) 0 < 256 → data.getD (i + 4) 0 < 256 →
      decodeLen data i =
        some (65536 * data.getD (i + 2) 0 + 256 * data.getD (i + 3) 0 + data.getD (i + 4) 0, 5)) ∧
    (∀ (data : List Nat) (i : Nat), 128 ≤ data.getD (i + 1) 0 →
      data.getD (i + 1) 0 ≠ 0x81 → data.getD (i + 1) 0 ≠ 0x82 → data.getD (i + 1) 0 ≠ 0x83 →
      decodeLen data i = none ∧ ∀ t, (i, t) ∉ cert_positions data) := by
  refine ⟨?_, ?_, ?_, ?_, ?_⟩
  · intro data i h
    exact decodeLen_short h
  · intro data i h h2
    exact decodeLen_x81 h h2
  · intro data i h h2 hb3
    have h256 : (2 : Nat) ^ 8 = 256 := by norm_num
    rw [decodeLen_x82 h h2, shiftLeft_lor_eq (show data.getD (i + 3) 0 < 2 ^ 8 from hb3)]
    have e : data.getD (i + 2) 0 * 2 ^ 8 + data.getD (i + 3) 0 =
        256 * data.getD (i + 2) 0 + data.getD (i + 3) 0 := by
      rw [h256]
      ring
    rw [e]
  · intro data i h h2 hb3 hb4
    have h256 : (2 : Nat) ^ 8 = 256 := by norm_num
    have h65536 : (2 : Nat) ^ 16 = 65536 := by norm_num
    rw [decodeLen_x83 h h2]
    have hlt16 : (data.getD (i + 3) 0) <<< 8 < 2 ^ 16 := by
      rw [Nat.shiftLeft_eq, h256, h65536]
      omega
    have e1 : ((data.getD (i + 2) 0) <<< 16) ||| ((data.getD (i + 3) 0) <<< 8) =
        (256 * data.getD (i + 2) 0 + data.getD (i + 3) 0) <<< 8 := by
      rw [shiftLeft_lor_eq hlt16]
      simp only [Nat.shiftLeft_eq, h256, h65536]
      ring
    rw [e1, shiftLeft_lor_eq (show data.getD (i + 4) 0 < 2 ^ 8 from hb4)]
    have e2 : (256 * data.getD (i + 2) 0 + data.getD (i + 3) 0) * 2 ^ 8 + data.getD (i + 4) 0 =
        65536 * data.getD (i + 2) 0 + 256 * data.getD (i + 3) 0 + data.getD (i + 4) 0 := by
      rw [h256]
      ring
    rw [e2]
  · intro data i h h1 h2 h3
    have hdec := decodeLen_unsupported h h1 h2 h3
    refine ⟨hdec, fun t hmem => ?_⟩
    rw [cert_positions] at hmem
    have hm := spans_mem hmem
    obtain ⟨-, L, hd, hdec2, -⟩ := accepts_inv hm.1
    rw [hdec] at hdec2
    simp at hdec2

theorem C4_length_decoder_witness :
    decodeLen [0x30, 0x05, 0, 0, 0, 0] 0 = some (5, 2) ∧
    decodeLen [0x30, 0x81, 0x90, 0, 0, 0] 0 = some (0x90, 3) ∧
    decodeLen [0x30, 0x82, 0x01, 0x02, 0, 0] 0 = some (258, 4) ∧
    decodeLen [0x30, 0x83, 0x01, 0x02, 0x03, 0] 0 = some (66051, 5) ∧
    decodeLen [0x30, 0x84, 1, 1, 1, 1] 0 = none ∧
    (0, 131) ∉ cert_positions [0x30, 0x84, 1, 1, 1, 1] :=
  ⟨C4_length_decoder.1 _ 0 (by decide),
   C4_length_decoder.2.1 _ 0 (by decide) (by decide),
   C4_length_decoder.2.2.1 _ 0 (by decide) (by decide) (by decide),
   C4_length_decoder.2.2.2.1 _ 0 (by decide) (by decide) (by decide) (by decide),
   (C4_length_decoder.2.2.2.2 _ 0 (by decide) (by decide) (by decide) (by decide)).1,
   (C4_length_decoder.2.2.2.2 _ 0 (by decide) (by decide) (by decide) (by decide)).2 131⟩

theorem accepts_bufLen10000 : accepts bufLen10000 0 = some 10004 := by
  have hlen : bufLen10000.length = 10004 := by
    rw [bufLen10000]
    simp only [List.length_cons, List.length_replicate]
  have hb1 : bufLen10000.getD (0 + 1) 0 = 0x82 := rfl
  have hdec : decodeLen bufLen10000 0 = some (10000, 4) := by
    rw [decodeLen_x82 hb1 (by omega)]
    decide
  have h0 : bufLen10000.getD 0 0 = 0x30 := rfl
  have hfol : bufLen10000.getD (0 + 4) 0 = 0x30 := rfl
  exact accepts_intro h0 hdec (by norm_num) (by norm_num) (by omega) (by omega) (Or.inl hfol)

theorem accepts_bufLen10001 : accepts bufLen10001 0 = none := by
  have hlen : bufLen10001.length = 10005 := by
    rw [bufLen10001]
    simp only [List.length_cons, List.length_replicate]
  have hb1 : bufLen10001.getD (0 + 1) 0 = 0x82 := rfl
  have hdec : decodeLen bufLen10001 0 = some (10001, 4) := by
    rw [decodeLen_x82 hb1 (by omega)]
    decide
  cases hacc : accepts bufLen10001 0 with
  | none => rfl
  | some t =>
    obtain ⟨-, L, hd, hdec2, -, -, hw2, -⟩ := accepts_inv hacc
    rw [hdec] at hdec2
    simp only [Option.some.injEq, Prod.mk.injEq] at hdec2
    omega

/-- C5: a candidate that passes the tag, decoding, bounds and follow-byte
checks is accepted exactly when its decoded length lies in the inclusive
window 128..10000; concretely, under otherwise-valid conditions decoded
length 127 is rejected, 128 accepted, 10000 accepted, 10001 rejected. -/
theorem C5_plausibility_window :
    (∀ (data : List Nat) (i L hd : Nat),
      data.getD i 0 = 0x30 → decodeLen data i = some (L, hd) →
      i + (hd + L) ≤ data.length → hd < data.length →
      (data.getD (i + hd) 0 = 0x30 ∨ data.getD (i + hd) 0 = 0x02) →
      (accepts data i = some (hd + L) ↔ 128 ≤ L ∧ L ≤ 10000)) ∧
    accepts bufLen127 0 = none ∧ accepts bufLen128 0 = some 131 ∧
    accepts bufLen10000 0 = some 10004 ∧ accepts bufLen10001 0 = none := by
  refine ⟨?_, by decide, by decide, accepts_bufLen10000, accepts_bufLen10001⟩
  intro data i L hd h0 hdec hfit hhd hfol
  constructor
  · intro hacc
    obtain ⟨-, L', hd', hdec', ht, hw1, hw2, -⟩ := accepts_inv hacc
    rw [hdec] at hdec'
    simp only [Option.some.injEq, Prod.mk.injEq] at hdec'
    omega
  · rintro ⟨hw1, hw2⟩
    exact accepts_intro h0 hdec hw1 hw2 hfit hhd hfol

theorem C5_plausibility_window_witness :
    bufLen128.getD 0 0 = 0x30 ∧ decodeLen bufLen128 0 = some (128, 3) ∧
    0 + (3 + 128) ≤ bufLen128.length ∧ 3 < bufLen128.length ∧
    (bufLen128.getD (0 + 3) 0 = 0x30 ∨ bufLen128.getD (0 + 3) 0 = 0x02) ∧
    (accepts bufLen128 0 = some (3 + 128) ↔ 128 ≤ 128 ∧ 128 ≤ 10000) :=
  ⟨by decide, by decide, by decide, by decide, by decide,
   C5_plausibility_window.1 bufLen128 0 128 3 (by decide) (by decide) (by decide)
     (by decide) (by decide)⟩

/-- C6: every accepted span starts with the SEQUENCE tag 0x30 and the byte
just after its header is 0x30 or 0x02; and a candidate that fails only the
follow-byte check makes the cursor advance by a single byte, not past the
candidate. -/
theorem C6_tag_and_follow_byte :
    (∀ (data : List Nat) (p : Nat × Nat), p ∈ cert_positions data →
      data.getD p.1 0 = 0x30 ∧
      ∃ L hd, decodeLen data p.1 = some (L, hd) ∧ p.2 = hd + L ∧
        (data.getD (p.1 + hd) 0 = 0x30 ∨ data.getD (p.1 + hd) 0 = 0x02)) ∧
    (∀ (data : List Nat) (fuel i L hd : Nat), i + 4 < data.length →
      data.getD i 0 = 0x30 → decodeLen data i = some (L, hd) →
      128 ≤ L → L ≤ 10000 → i + (hd + L) ≤ data.length → hd < data.length →
      ¬ (data.getD (i + hd) 0 = 0x30 ∨ data.getD (i + hd) 0 = 0x02) →
      scanGo data (fuel + 1) i = scanGo data fuel (i + 1)) := by
  constructor
  · intro data p hp
    rw [cert_positions] at hp
    have hm := spans_mem hp
    obtain ⟨htag, L, hd, hdec, ht, -, -, -, -, hfol⟩ := accepts_inv hm.1
    exact ⟨htag, L, hd, hdec, ht, hfol⟩
  · intro data fuel i L hd hcond h0 hdec hw1 hw2 hfit hhd hnf
    have hacc : accepts data i = none := by
      cases hacc : accepts data i with
      | none => rfl
      | some t =>
        obtain ⟨-, L2, hd2, hdec2, -, -, -, -, -, hfol⟩ := accepts_inv hacc
        rw [hdec] at hdec2
        simp only [Option.some.injEq, Prod.mk.injEq] at hdec2
        obtain ⟨rfl, rfl⟩ := hdec2
        exact absurd hfol hnf
    exact scanGo_skip fuel hcond hacc

theorem C6_tag_and_follow_byte_witness :
    bufLen128.getD 0 0 = 0x30 ∧ scanGo badFollow 6 0 = scanGo badFollow 5 1 :=
  ⟨(C6_tag_and_follow_byte.1 bufLen128 (0, 131) (by decide)).1,
   C6_tag_and_follow_byte.2 badFollow 5 0 128 3 (by decide) (by decide) (by decide)
     (by decide) (by decide) (by decide) (by decide) (by decide)⟩

/-- C7: round-trip idempotence — if (s, t) is a span accepted by the scan of
a buffer, scanning the sub-buffer of exactly those t bytes in isolation
yields exactly one span covering the whole sub-buffer. -/
theorem C7_rescan_idempotent (data : List Nat) (s t : Nat)
    (h : (s, t) ∈ cert_positions data) :
    cert_positions ((data.drop s).take t) = [(0, t)] := by
  rw [cert_positions] at h
  have hm := spans_mem h
  have hacc : accepts data s = some t := hm.1
  have ht130 := accepts_total_lb hacc
  obtain ⟨-, L, hd, -, -, -, -, hfit, -, -⟩ := accepts_inv hacc
  have hlen : ((data.drop s).take t).length = t := by
    simp only [List.length_take, List.length_drop]
    omega
  have hc : ∀ j, j < t → ((data.drop s).take t).getD (0 + j) 0 = data.getD (s + j) 0 := by
    intro j hj
    rw [Nat.zero_add, getD_take 0 hj, getD_drop]
  have hacc2 : accepts ((data.drop s).take t) 0 = some t :=
    accepts_congr hacc hc (by omega)
  rw [cert_positions, hlen, scanGo_accept_pos (show 0 < t by omega) (by omega) hacc2,
    Nat.zero_add, scanGo_stop (t - 1) (by omega)]

theorem C7_rescan_idempotent_witness :
    cert_positions ((bufLen128.drop 0).take 131) = [(0, 131)] :=
  C7_rescan_idempotent bufLen128 0 131 (by decide)

theorem accepts_blob {p : List Nat} (rest : List Nat) (hlen : p.length = 128)
    (hp : p.getD 0 0 = 0x30) : accepts (blob p ++ rest) 0 = some 131 := by
  have hL : (blob p ++ rest).length = 131 + rest.length := by
    simp only [blob, List.cons_append, List.length_cons, List.length_append, hlen]
    omega
  have e0 : (blob p ++ rest).getD 0 0 = 0x30 := rfl
  have e1 : (blob p ++ rest).getD (0 + 1) 0 = 0x81 := rfl
  have e3 : (blob p ++ rest).getD (0 + 3) 0 = 0x30 := by
    show (p ++ rest).getD 0 0 = 0x30
    rw [getD_append_lt 0 (by omega)]
    exact hp
  have hdec : decodeLen (blob p ++ rest) 0 = some (128, 3) := by
    have e2 : (blob p ++ rest).getD (0 + 2) 0 = 128 := rfl
    rw [decodeLen_x81 e1 (by omega), e2]
  exact accepts_intro e0 hdec (by norm_num) (by norm_num) (by omega) (by omega) (Or.inl e3)

/-- C9: concatenating three minimal blobs 30 81 80 followed by a 128-byte
payload starting with 0x30, back to back, yields exactly three spans of total
size 131 at offsets 0, 131, 262; the certificate at list position idx is
named with the prefix followed by the decimal value of start_index + idx, so
with start_index 3 the names end in 3, 4, 5. -/
theorem C9_three_blob_chain (p1 p2 p3 : List Nat) (pfx : String) (si : Nat)
    (hl1 : p1.length = 128) (hg1 : p1.getD 0 0 = 0x30)
    (hl2 : p2.length = 128) (hg2 : p2.getD 0 0 = 0x30)
    (hl3 : p3.length = 128) (hg3 : p3.getD 0 0 = 0x30) :
    cert_positions (blob p1 ++ (blob p2 ++ blob p3)) = [(0, 131), (131, 131), (262, 131)] ∧
    certNames pfx si (cert_positions (blob p1 ++ (blob p2 ++ blob p3))) =
      [pfx ++ toString si, pfx ++ toString (si + 1), pfx ++ toString (si + 2)] ∧
    certNames pfx 3 (cert_positions (blob p1 ++ (blob p2 ++ blob p3))) =
      [pfx ++ "3", pfx ++ "4", pfx ++ "5"] := by
  have hb1 : (blob p1).length = 131 := by
    simp only [blob, List.length_cons, hl1]
  have hb2 : (blob p2).length = 131 := by
    simp only [blob, List.length_cons, hl2]
  have hlen : (blob p1 ++ (blob p2 ++ blob p3)).length = 393 := by
    simp only [List.length_append, hb1, hb2]
    simp only [blob, List.length_cons, hl3]
  have ha0 : accepts (blob p1 ++ (blob p2 ++ blob p3)) 0 = some 131 :=
    accepts_blob _ hl1 hg1
  have ha131 : accepts (blob p1 ++ (blob p2 ++ blob p3)) 131 = some 131 := by
    have hx : accepts (blob p2 ++ blob p3) 0 = some 131 := accepts_blob _ hl2 hg2
    have h2 := accepts_append_add (blob p1) hx
    rw [hb1] at h2
    simpa using h2
  have ha262 : accepts (blob p1 ++ (blob p2 ++ blob p3)) 262 = some 131 := by
    have hx : accepts (blob p3 ++ ([] : List Nat)) 0 = some 131 := accepts_blob _ hl3 hg3
    rw [List.append_nil] at hx
    have h2 := accepts_append_add (blob p1 ++ blob p2) hx
    rw [List.append_assoc] at h2
    simp only [List.length_append, hb1, hb2] at h2
    simpa using h2
  have hmain : cert_positions (blob p1 ++ (blob p2 ++ blob p3)) =
      [(0, 131), (131, 131), (262, 131)] := by
    rw [cert_positions, hlen,
      scanGo_accept_pos (show (0 : Nat) < 393 by norm_num) (by omega) ha0, Nat.zero_add,
      scanGo_accept_pos (show (0 : Nat) < 393 - 1 by norm_num) (by omega) ha131,
      show (131 : Nat) + 131 = 262 from rfl,
      scanGo_accept_pos (show (0 : Nat) < 393 - 1 - 1 by norm_num) (by omega) ha262,
      show (262 : Nat) + 131 = 393 from rfl,
      scanGo_stop _ (by omega)]
  refine ⟨hmain, ?_, ?_⟩
  · rw [hmain]
    rfl
  · rw [hmain]
    show [pfx ++ toString (3 : Nat), pfx ++ toString (4 : Nat), pfx ++ toString (5 : Nat)] =
      [pfx ++ "3", pfx ++ "4", pfx ++ "5"]
    rw [show toString (3 : Nat) = "3" from by decide,
      show toString (4 : Nat) = "4" from by decide,
      show toString (5 : Nat) = "5" from by decide]

theorem C9_three_blob_chain_witness :
    cert_positions (blob payload128 ++ (blob payload128 ++ blob payload128)) =
      [(0, 131), (131, 131), (262, 131)] ∧
    certNames "intel-int" 3
      (cert_positions (blob payload128 ++ (blob payload128 ++ blob payload128))) =
      ["intel-int3", "intel-int4", "intel-int5"] := by
  have h := C9_three_blob_chain payload128 payload128 payload128 "intel-int" 3
    (by decide) (by decide) (by decide) (by decide) (by decide) (by decide)
  refine ⟨h.1, ?_⟩
  rw [h.2.2]
  decide

/-- C8 (amended): for a buffer formed from two certificates each accepted by
the scan as a single full span, followed by a truncated third part whose
declared length exceeds the remaining bytes, the scan still yields the first
two certificates as its first two spans and emits no span starting at the
truncated certificate's offset; spans may however still be emitted from
strictly inside the truncated tail. -/
theorem C8_truncated_third (A B C' : List Nat)
    (hA : cert_positions A = [(0, A.length)])
    (hB : cert_positions B = [(0, B.length)])
    (hT : ∀ L hd, decodeLen (A ++ (B ++ C')) (A.length + B.length) = some (L, hd) →
      (A ++ (B ++ C')).length < A.length + B.length + (hd + L)) :
    ∃ rest, cert_positions (A ++ (B ++ C')) =
        (0, A.length) :: (A.length, B.length) :: rest ∧
      ∀ p ∈ rest, A.length + B.length < p.1 := by
  have hmA : accepts A 0 = some A.length ∧ 0 + 4 < A.length := by
    have hx : (0, A.length) ∈ cert_positions A := by
      rw [hA]
      exact List.mem_singleton_self _
    rw [cert_positions] at hx
    have hm := spans_mem hx
    exact ⟨hm.1, by omega⟩
  have hmB : accepts B 0 = some B.length ∧ 0 + 4 < B.length := by
    have hx : (0, B.length) ∈ cert_positions B := by
      rw [hB]
      exact List.mem_singleton_self _
    rw [cert_positions] at hx
    have hm := spans_mem hx
    exact ⟨hm.1, by omega⟩
  have hlen : (A ++ (B ++ C')).length = A.length + (B.length + C'.length) := by
    simp
  have ha0 : accepts (A ++ (B ++ C')) 0 = some A.length :=
    accepts_append_left (B ++ C') hmA.1
  have haA : accepts (A ++ (B ++ C')) A.length = some B.length := by
    have hx : accepts (B ++ C') 0 = some B.length := accepts_append_left C' hmB.1
    have h2 := accepts_append_add A hx
    simpa using h2
  have haAB : accepts (A ++ (B ++ C')) (A.length + B.length) = none := by
    cases hacc : accepts (A ++ (B ++ C')) (A.length + B.length) with
    | none => rfl
    | some t =>
      obtain ⟨-, L, hd, hdec, ht, -, -, hfit, -, -⟩ := accepts_inv hacc
      have := hT L hd hdec
      omega
  have hA4 := hmA.2
  have hB4 := hmB.2
  rw [cert_positions,
    scanGo_accept_pos (show 0 < (A ++ (B ++ C')).length by omega) (by omega) ha0,
    Nat.zero_add,
    scanGo_accept_pos (show 0 < (A ++ (B ++ C')).length - 1 by omega) (by omega) haA]
  refine ⟨scanGo (A ++ (B ++ C')) ((A ++ (B ++ C')).length - 1 - 1) (A.length + B.length),
    rfl, ?_⟩
  intro p hp
  exact no_span_at_rejected haAB hp

/-- C8 counterexample: three certificates, each individually accepted by the
scan as one full span; the third is truncated so that its declared length
exceeds the remaining bytes; yet the scan of the combined buffer yields three
spans, not two — the truncated tail contains an inner byte pattern that is
itself accepted. -/
theorem C8_counterexample :
    cert_positions certA = [(0, certA.length)] ∧
    cert_positions certC = [(0, certC.length)] ∧
    buf8 = certA ++ (certA ++ certC.take 134) ∧
    decodeLen buf8 (certA.length + certA.length) = some (135, 3) ∧
    buf8.length < certA.length + certA.length + (3 + 135) ∧
    cert_positions buf8 = [(0, 131), (131, 131), (265, 131)] ∧
    (cert_positions buf8).length ≠ 2 := by
  decide

theorem C8_truncated_third_witness :
    ∃ rest, cert_positions (certA ++ (certA ++ certC.take 134)) =
        (0, certA.length) :: (certA.length, certA.length) :: rest ∧
      ∀ p ∈ rest, certA.length + certA.length < p.1 := by
  refine C8_truncated_third certA certA (certC.take 134) (by decide) (by decide) ?_
  intro L hd hEq
  have h2 : decodeLen (certA ++ (certA ++ certC.take 134)) (certA.length + certA.length) =
      some (135, 3) := by decide
  rw [h2] at hEq
  simp only [Option.some.injEq, Prod.mk.injEq] at hEq
  obtain ⟨rfl, rfl⟩ := hEq
  decide

end Dechainer
